import Mathlib

/-!
# Verification of ImageRename (src/image_rename.py)

A shallow embedding of the rename utility.  Filenames are `List Char`.
The regular expression of `matches_old_filename_format`,

    r'^(.+)_(\d{8})_(.+)(\.\w+)$'

is embedded as an executable backtracking matcher that follows Python's
`re.match` semantics for this pattern:

* `.` matches any character except `'\n'`;
* `\d` and `\w` are the ASCII digit and word classes (the development is
  scoped to ASCII filenames, the only scope the program's documentation and
  tests exercise);
* `(.+)` is greedy: the match with the longest first group wins, so the date
  group binds to the last eligible underscore-bounded 8-digit run;
* for a fixed split of the first group the rest of the pattern is forced:
  `_(\d{8})_` consumes exactly ten characters, and because `\w` cannot match
  `'.'`, the group `(\.\w+)$` must start at the last dot of what remains;
* `$` matches at the end of the string or just before a single newline that
  ends the string (Python `re` semantics for `'$'`).

The filesystem-facing functions (`rename_file`, `rename_files_in_directory`,
`main`) are embedded over an explicit filesystem state `FS`; the
`try/except` around `path.rename` is modelled by a boolean oracle saying
whether the underlying rename call raises.
-/

/-- ASCII version of the regex class `\d` (Python `str.isdigit` scope used by
`re` on ASCII input). -/
def pyDigit (c : Char) : Bool := c.isDigit

/-- ASCII version of the regex class `\w`: letters, digits and underscore. -/
def pyWord (c : Char) : Bool := c.isAlphanum || c = '_'

/-- `true` when no character of the list is a newline; the regex atom `.`
cannot match `'\n'`. -/
def noNl (l : List Char) : Bool := l.all (fun c => c ≠ '\n')

/-- Consume the literal `_` of the pattern: succeeds exactly on a list whose
head is an underscore, returning the tail. -/
def expectUnderscore (l : List Char) : Option (List Char) :=
  match l with
  | c :: r => if c = '_' then some r else none
  | [] => none

/-- Python's `$` may stand just before a newline that ends the string; the
part of the string that the pattern proper has to cover is the string with
such a final newline removed. -/
def stripNl (t : List Char) : List Char :=
  if t.getLast? = some '\n' then t.dropLast else t

/-- Match `(.+)(\.\w+)$` against `t`, returning the two groups.  Since `\w`
cannot match a dot, the extension group must start at the last dot of the
`$`-delimited part; the free-text group is what precedes that dot (it must be
non-empty and, being matched by `.+`, newline-free). -/
def extOk (t : List Char) : Option (List Char × List Char) :=
  let core := stripNl t
  let wrev := core.reverse.takeWhile (fun c => c ≠ '.')
  match core.reverse.dropWhile (fun c => c ≠ '.') with
  | [] => none
  | c :: g3rev =>
    let g3 := g3rev.reverse
    let w := wrev.reverse
    if c = '.' ∧ g3 ≠ [] ∧ noNl g3 = true ∧ w ≠ [] ∧ w.all pyWord = true then
      some (g3, '.' :: w)
    else none

/-- Try the match of `^(.+)_(\d{8})_(.+)(\.\w+)$` with the first group bound
to the first `i` characters of `s`.  Everything after the choice of `i` is
forced by the pattern. -/
def tryG1 (s : List Char) (i : Nat) :
    Option (List Char × List Char × List Char × List Char) :=
  match expectUnderscore (s.drop i) with
  | none => none
  | some r2 =>
    let g1 := s.take i
    let d := r2.take 8
    if g1 ≠ [] ∧ noNl g1 = true ∧ d.length = 8 ∧ d.all pyDigit = true then
      match expectUnderscore (r2.drop 8) with
      | none => none
      | some t =>
        match extOk t with
        | none => none
        | some (g3, ext) => some (g1, d, g3, ext)
    else none

/-- Backtracking loop for the greedy group `(.+)`: try the split after `n`
characters first, then shorter and shorter first groups. -/
def vbSearch (s : List Char) : Nat → Option (List Char × List Char × List Char × List Char)
  | 0 => none
  | i + 1 =>
    match tryG1 s (i + 1) with
    | some g => some g
    | none => vbSearch s i

/-- `matches_old_filename_format` of src/image_rename.py:
`re.match(r'^(.+)_(\d{8})_(.+)(\.\w+)$', filename)`, returning the four
capture groups on success. -/
def matches_old_filename_format (s : List Char) :
    Option (List Char × List Char × List Char × List Char) :=
  vbSearch s s.length

/-- `generate_new_filename` of src/image_rename.py: on a match, build
`f"{date}_{description}_{original_filename}{extension}"`. -/
def generate_new_filename (s : List Char) : Option (List Char) :=
  match matches_old_filename_format s with
  | none => none
  | some (g1, d, g3, ext) => some (d ++ '_' :: (g3 ++ '_' :: (g1 ++ ext)))

/-!
## Variant A (spec-modelled)

The repository's test suite (src/test_image_rename.py) imports and tests a
matcher `matches_pattern` and a Variant-A `generate_new_filename` for the
layout `IMG_<4-digit-id>_<8-digit-date>_<freetext><.ext>`, but that code is
absent from src/image_rename.py (the module only contains the Variant-B
matcher above).  The Variant-A functions are therefore modelled from the
spec.
-/

/-- Modelled from the spec: the trailing part of Variant A,
`(<freetext>)(\.\w+)` — the extension is the final dot plus one or more word
characters, and the free text before it is non-empty. -/
def vaExtSplit (t : List Char) : Option (List Char × List Char) :=
  let wrev := t.reverse.takeWhile (fun c => c ≠ '.')
  match t.reverse.dropWhile (fun c => c ≠ '.') with
  | [] => none
  | c :: txtrev =>
    let txt := txtrev.reverse
    let w := wrev.reverse
    if c = '.' ∧ txt ≠ [] ∧ w ≠ [] ∧ w.all pyWord = true then some (txt, '.' :: w)
    else none

/-- Modelled from the spec: the Variant A matcher `matches_pattern`
(absent from src/image_rename.py; imported and tested by
src/test_image_rename.py), recognizing
`IMG_<4-digit-id>_<8-digit-date>_<freetext><.ext>` with the id anchored at
exactly 4 digits, the date at exactly 8 digits, a case-sensitive literal
`IMG_` head, and the extension being the final dot plus one or more word
characters. -/
def matches_pattern (s : List Char) :
    Option (List Char × List Char × List Char × List Char) :=
  if s.take 4 = ['I', 'M', 'G', '_'] then
    let r := s.drop 4
    let id := r.take 4
    if id.length = 4 ∧ id.all pyDigit = true then
      match expectUnderscore (r.drop 4) with
      | none => none
      | some r3 =>
        let d := r3.take 8
        if d.length = 8 ∧ d.all pyDigit = true then
          match expectUnderscore (r3.drop 8) with
          | none => none
          | some t =>
            match vaExtSplit t with
            | none => none
            | some pr => some (id, d, pr.1, pr.2)
        else none
    else none
  else none

/-- Modelled from the spec: the Variant A name builder (absent from
src/image_rename.py; tested by src/test_image_rename.py), producing
`f"{date}_{description}_IMG_{number}{extension}"` from a Variant A match. -/
def va_generate_new_filename (s : List Char) : Option (List Char) :=
  match matches_pattern s with
  | none => none
  | some (id, d, txt, ext) =>
    some (d ++ '_' :: (txt ++ '_' :: ('I' :: 'M' :: 'G' :: '_' :: id) ++ ext))

/-- A filename of the Variant A shape `IMG_<id>_<date>_<text>.<w>`, assembled
from its four components. -/
def vaShape (id d txt w : List Char) : List Char :=
  'I' :: 'M' :: 'G' :: '_' :: (id ++ '_' :: (d ++ '_' :: (txt ++ '.' :: w)))

/-!
## Filesystem model

`rename_file`, `rename_files_in_directory` and the path-processing part of
`main` act on a filesystem state: a list of regular files (each with the
path of its parent directory and its name) and a list of directory paths.
The `try/except` around `path.rename` is modelled by an oracle telling
whether the underlying OS rename raises for a given path.
-/

/-- A file path split as `Path` does: parent directory and final name. -/
structure FsPath where
  dir : List Char
  name : List Char
deriving DecidableEq

/-- Filesystem state: the set of regular files and the set of directories. -/
structure FS where
  files : List FsPath
  dirs : List (List Char)
deriving DecidableEq

/-- `str(path)`: the full textual path, `parent/name`. -/
def fullPath (p : FsPath) : List Char := p.dir ++ '/' :: p.name

/-- `path.exists()` for a file-shaped path: present as a regular file, or a
directory of that full path exists. -/
def pathEx (fs : FS) (p : FsPath) : Prop :=
  p ∈ fs.files ∨ fullPath p ∈ fs.dirs

instance (fs : FS) (p : FsPath) : Decidable (pathEx fs p) := by
  unfold pathEx; infer_instance

/-- The state after `path.rename(new_path)`: the old file is gone, the new
one present. -/
def renameFS (fs : FS) (old new : FsPath) : FS :=
  ⟨new :: fs.files.erase old, fs.dirs⟩

/-- The per-file result `(success, old_name, new_name, message)`. -/
structure Outcome where
  success : Bool
  old_name : List Char
  new_name : Option (List Char)
  message : String
deriving DecidableEq

/-- `rename_file` of src/image_rename.py, returning the outcome tuple and
the filesystem after the call.  `osRenameFails` models the `except` branch:
the underlying `path.rename` raising (permissions, race, device). -/
def rename_file (fs : FS) (filepath : FsPath) (dry_run : Bool)
    (osRenameFails : Bool) : Outcome × FS :=
  if ¬ pathEx fs filepath then
    (⟨false, fullPath filepath, none, "File does not exist"⟩, fs)
  else if filepath ∉ fs.files then
    (⟨false, fullPath filepath, none, "Not a file"⟩, fs)
  else
    let filename := filepath.name
    match generate_new_filename filename with
    | none =>
      (⟨false, filename, none,
        "Does not match OriginalFilename_YYYYMMDD_Caption pattern"⟩, fs)
    | some nf =>
      let newPath : FsPath := ⟨filepath.dir, nf⟩
      if pathEx fs newPath then
        (⟨false, filename, some nf, "Target file already exists"⟩, fs)
      else if dry_run then
        (⟨true, filename, some nf, "Would rename (dry run)"⟩, fs)
      else if osRenameFails then
        (⟨false, filename, some nf, "Error: OSError"⟩, fs)
      else
        (⟨true, filename, some nf, "Successfully renamed"⟩,
         renameFS fs filepath newPath)

/-- The statistics dictionary of `rename_files_in_directory`. -/
structure Stats where
  total : Nat
  renamed : Nat
  skipped : Nat
  errors : Nat
  error : Bool
deriving DecidableEq

/-- The three buckets a processed file can fall into. -/
inductive Bucket
  | renamed
  | skipped
  | errors
deriving DecidableEq

/-- The classification performed by the loop body of
`rename_files_in_directory`: `if success / elif new_name is None / else`. -/
def classify (o : Outcome) : Bucket :=
  if o.success then Bucket.renamed
  else if o.new_name = none then Bucket.skipped
  else Bucket.errors

/-- One iteration of the loop of `rename_files_in_directory`: bump `total`,
call `rename_file`, bump the bucket of the outcome. -/
def processFile (acc : Stats × FS) (p : FsPath) (dry_run : Bool)
    (oracle : FsPath → Bool) : Stats × FS :=
  let st := acc.1
  let res := rename_file acc.2 p dry_run (oracle p)
  let st1 : Stats := ⟨st.total + 1, st.renamed, st.skipped, st.errors, st.error⟩
  match classify res.1 with
  | Bucket.renamed => (⟨st1.total, st1.renamed + 1, st1.skipped, st1.errors, st1.error⟩, res.2)
  | Bucket.skipped => (⟨st1.total, st1.renamed, st1.skipped + 1, st1.errors, st1.error⟩, res.2)
  | Bucket.errors => (⟨st1.total, st1.renamed, st1.skipped, st1.errors + 1, st1.error⟩, res.2)

/-- The whole loop of `rename_files_in_directory` over the candidate list. -/
def processFiles (fs : FS) (files : List FsPath) (dry_run : Bool)
    (oracle : FsPath → Bool) (st : Stats) : Stats × FS :=
  files.foldl (fun acc p => processFile acc p dry_run oracle) (st, fs)

/-- The candidate enumeration: `glob("*")` keeps direct children,
`rglob("*")` the whole subtree; the subsequent comprehension keeps only
regular files, so only `fs.files` entries can be candidates. -/
def candidateFiles (fs : FS) (dir : List Char) (recursive : Bool) : List FsPath :=
  fs.files.filter (fun p =>
    if recursive then decide (p.dir.take dir.length = dir) else decide (p.dir = dir))

/-- `dir_path.exists()` for the directory argument. -/
def dirEx (fs : FS) (d : List Char) : Prop :=
  d ∈ fs.dirs ∨ ∃ p ∈ fs.files, fullPath p = d

instance (fs : FS) (d : List Char) : Decidable (dirEx fs d) := by
  unfold dirEx; infer_instance

/-- `rename_files_in_directory` of src/image_rename.py.  On a missing or
non-directory path it returns `{"error": True}` (modelled with zeroed
counters); otherwise it folds the loop over the candidates starting from the
zeroed statistics. -/
def rename_files_in_directory (fs : FS) (dir : List Char)
    (recursive dry_run : Bool) (oracle : FsPath → Bool) : Stats × FS :=
  if ¬ dirEx fs dir then (⟨0, 0, 0, 0, true⟩, fs)
  else if dir ∉ fs.dirs then (⟨0, 0, 0, 0, true⟩, fs)
  else processFiles fs (candidateFiles fs dir recursive) dry_run oracle ⟨0, 0, 0, 0, false⟩

/-- The path-processing part of `main` (after argument parsing, `--version`
and the missing-argument check): returns the process exit status. -/
def mainRun (fs : FS) (argPath : List Char) (recursive dry_run : Bool)
    (oracle : FsPath → Bool) : Nat :=
  if ¬ dirEx fs argPath then 1
  else
    match fs.files.find? (fun p => decide (fullPath p = argPath)) with
    | some p =>
      let res := rename_file fs p dry_run (oracle p)
      if res.1.success then 0 else 1
    | none =>
      if argPath ∈ fs.dirs then
        let res := rename_files_in_directory fs argPath recursive dry_run oracle
        if res.1.error then 1 else if res.1.errors = 0 then 0 else 1
      else 1

/-- The claim C4 notion of a trailing extension: the filename ends in a dot
followed by one or more word characters.  Computed as: the maximal word-char
suffix is non-empty and is preceded by a dot. -/
def hasTrailingExt (s : List Char) : Bool :=
  match s.reverse.dropWhile (fun c => pyWord c) with
  | c :: _ => decide (c = '.') && !(s.reverse.takeWhile (fun c => pyWord c)).isEmpty
  | [] => false

/-!
## Concrete scenarios

Small closed inputs used to instantiate the theorems below: a directory
`/pics` holding a matching and a non-matching file, a collision scenario in
which both the source and its target name exist, and a single matching file
for the dry-run scenario.
-/

/-- The demo directory path `/pics`. -/
def picsDir : List Char := ("/pics" : String).data

/-- A file in the old layout. -/
def fileMatch1 : FsPath := ⟨picsDir, ("IMG_0001_20231215_First.jpg" : String).data⟩

/-- A file matching nothing. -/
def fileNoMatch : FsPath := ⟨picsDir, ("NotMatching.jpg" : String).data⟩

/-- A directory with one matching and one non-matching file. -/
def fsDemo : FS := ⟨[fileMatch1, fileNoMatch], [picsDir]⟩

/-- A directory with a single matching file. -/
def fsSolo : FS := ⟨[fileMatch1], [picsDir]⟩

/-- A source file whose rename target already exists. -/
def fileSrc : FsPath := ⟨picsDir, ("IMG_0001_20231215_Test.jpg" : String).data⟩

/-- The already-existing target of `fileSrc`. -/
def fileTgt : FsPath := ⟨picsDir, ("20231215_Test_IMG_0001.jpg" : String).data⟩

/-- The collision scenario: both the source and its target name exist. -/
def fsCollide : FS := ⟨[fileSrc, fileTgt], [picsDir]⟩

/-- The oracle of a healthy OS: the underlying rename never raises. -/
def noFail : FsPath → Bool := fun _ => false

/-! ## Character-class facts -/

theorem pyWord_ne_dot {c : Char} (h : pyWord c = true) : c ≠ '.' :=
  fun he => absurd (he ▸ h) (by decide)

theorem pyWord_ne_nl {c : Char} (h : pyWord c = true) : c ≠ '\n' :=
  fun he => absurd (he ▸ h) (by decide)

theorem pyDigit_ne_underscore {c : Char} (h : pyDigit c = true) : c ≠ '_' :=
  fun he => absurd (he ▸ h) (by decide)

/-! ## List helpers -/

theorem takeWhile_append_stop {α} (p : α → Bool) (a : List α) (c : α) (b : List α)
    (ha : a.all p = true) (hc : p c = false) :
    (a ++ c :: b).takeWhile p = a ∧ (a ++ c :: b).dropWhile p = c :: b := by
  induction a with
  | nil => simp [List.takeWhile_cons, List.dropWhile_cons, hc]
  | cons x xs ih =>
    simp only [List.all_cons, Bool.and_eq_true] at ha
    obtain ⟨hx, hxs⟩ := ha
    obtain ⟨ih1, ih2⟩ := ih hxs
    constructor
    · simp [List.takeWhile_cons, hx, ih1]
    · simp [List.dropWhile_cons, hx, ih2]

theorem eq_dropLast_concat {α} {l : List α} {a : α} (h : l.getLast? = some a) :
    l = l.dropLast ++ [a] := by
  cases l with
  | nil => simp at h
  | cons x xs =>
    have hne : (x :: xs) ≠ [] := by simp
    rw [List.getLast?_eq_getLast _ hne, Option.some_inj] at h
    rw [← h]
    exact (List.dropLast_append_getLast hne).symm

theorem getLast?_append_right {α} (l : List α) {m : List α} (h : m ≠ []) :
    (l ++ m).getLast? = m.getLast? := by
  rw [List.getLast?_append]
  cases hm : m.getLast? with
  | none =>
    cases m with
    | nil => exact absurd rfl h
    | cons y ys => rw [List.getLast?_eq_getLast _ (by simp)] at hm; simp at hm
  | some b => rfl

/-! ## `stripNl` -/

theorem stripNl_decomp (t : List Char) :
    ∃ nl, (nl = [] ∨ nl = ['\n']) ∧ t = stripNl t ++ nl := by
  unfold stripNl
  by_cases h : t.getLast? = some '\n'
  · exact ⟨['\n'], Or.inr rfl, by rw [if_pos h]; exact eq_dropLast_concat h⟩
  · exact ⟨[], Or.inl rfl, by rw [if_neg h, List.append_nil]⟩

theorem stripNl_concat_nl (l : List Char) : stripNl (l ++ ['\n']) = l := by
  unfold stripNl
  rw [List.getLast?_concat, if_pos rfl, List.dropLast_concat]

theorem stripNl_no_nl_end {l : List Char} (h : l.getLast? ≠ some '\n') :
    stripNl l = l := by
  unfold stripNl; rw [if_neg h]

/-! ## `extOk`: soundness and completeness -/

theorem extOk_sound {t g3 ext : List Char} (h : extOk t = some (g3, ext)) :
    ∃ w nl, ext = '.' :: w ∧ g3 ≠ [] ∧ noNl g3 = true ∧ w ≠ [] ∧
      w.all pyWord = true ∧ (nl = [] ∨ nl = ['\n']) ∧
      t = g3 ++ '.' :: w ++ nl := by
  rw [extOk] at h
  simp only at h
  generalize hT : (stripNl t).reverse.takeWhile (fun c => decide (c ≠ '.')) = T at h
  cases hdrop : (stripNl t).reverse.dropWhile (fun c => decide (c ≠ '.')) with
  | nil => rw [hdrop] at h; simp at h
  | cons c g3rev =>
    rw [hdrop] at h
    simp only at h
    split at h
    · rename_i hcond
      obtain ⟨hc, hg3, hnl3, hw, hword⟩ := hcond
      subst hc
      simp only [Option.some_inj, Prod.mk.injEq] at h
      obtain ⟨rfl, rfl⟩ := h
      have hsplit : T ++ '.' :: g3rev = (stripNl t).reverse := by
        rw [← hT, ← hdrop]; exact List.takeWhile_append_dropWhile _ _
      have hcore : stripNl t = g3rev.reverse ++ '.' :: T.reverse := by
        have h2 := congrArg List.reverse hsplit
        rw [List.reverse_reverse] at h2
        rw [← h2]
        simp
      obtain ⟨nl, hnlor, hteq⟩ := stripNl_decomp t
      refine ⟨T.reverse, nl, rfl, hg3, hnl3, hw, hword, hnlor, ?_⟩
      rw [hteq, hcore]
    · simp at h

theorem extOk_complete {g3 w nl : List Char}
    (hg3 : g3 ≠ []) (hnl3 : noNl g3 = true) (hw : w ≠ []) (hword : w.all pyWord = true)
    (hnl : nl = [] ∨ nl = ['\n']) :
    extOk (g3 ++ '.' :: w ++ nl) = some (g3, '.' :: w) := by
  have hstrip : stripNl (g3 ++ '.' :: w ++ nl) = g3 ++ '.' :: w := by
    rcases hnl with rfl | rfl
    · rw [List.append_nil]
      apply stripNl_no_nl_end
      cases w with
      | nil => exact absurd rfl hw
      | cons y ys =>
        have hne : (y :: ys) ≠ [] := by simp
        have ha : (y :: ys).getLast? = some ((y :: ys).getLast hne) :=
          List.getLast?_eq_getLast _ hne
        have haw : (y :: ys).getLast hne ∈ (y :: ys) := List.getLast_mem hne
        have hword_a : pyWord ((y :: ys).getLast hne) = true :=
          List.all_eq_true.mp hword _ haw
        have hlast : (g3 ++ '.' :: y :: ys).getLast? = some ((y :: ys).getLast hne) := by
          rw [getLast?_append_right g3 (by simp)]
          change (['.'] ++ (y :: ys)).getLast? = _
          rw [getLast?_append_right ['.'] hne]
          exact ha
        rw [hlast]
        intro hcontra
        exact pyWord_ne_nl hword_a (Option.some_inj.mp hcontra)
    · have he : g3 ++ '.' :: w ++ ['\n'] = (g3 ++ '.' :: w) ++ ['\n'] := by simp
      rw [he, stripNl_concat_nl]
  have hrev : (g3 ++ '.' :: w).reverse = w.reverse ++ '.' :: g3.reverse := by
    simp
  have hallrev : (w.reverse).all (fun c => decide (c ≠ '.')) = true := by
    rw [List.all_eq_true]
    intro x hx
    rw [List.mem_reverse] at hx
    exact decide_eq_true (pyWord_ne_dot (List.all_eq_true.mp hword x hx))
  have hdot : (fun c => decide (c ≠ '.')) '.' = false := by decide
  obtain ⟨htake, hdrop⟩ :=
    takeWhile_append_stop (fun c => decide (c ≠ '.')) w.reverse '.' g3.reverse hallrev hdot
  rw [extOk, hstrip, hrev, hdrop]
  simp only [htake]
  simp [hg3, hnl3, hw, hword]

/-! ## `tryG1` and the greedy search -/

theorem expectUnderscore_eq_some {l r : List Char} :
    expectUnderscore l = some r ↔ l = '_' :: r := by
  cases l with
  | nil => simp [expectUnderscore]
  | cons c cs =>
    by_cases hc : c = '_' <;> simp [expectUnderscore, hc]

theorem expectUnderscore_cons_underscore (l : List Char) :
    expectUnderscore ('_' :: l) = some l := by
  simp [expectUnderscore]

theorem tryG1_sound {s : List Char} {i : Nat} {g1 d g3 ext : List Char}
    (h : tryG1 s i = some (g1, d, g3, ext)) :
    g1 = s.take i ∧ ∃ t, s = g1 ++ '_' :: (d ++ '_' :: t) ∧ extOk t = some (g3, ext) ∧
      g1 ≠ [] ∧ noNl g1 = true ∧ d.length = 8 ∧ d.all pyDigit = true := by
  rw [tryG1] at h
  cases h1 : expectUnderscore (s.drop i) with
  | none => rw [h1] at h; simp at h
  | some r2 =>
    rw [h1] at h
    simp only at h
    split at h
    · rename_i hcond
      obtain ⟨hg1ne, hg1nl, hdlen, hddig⟩ := hcond
      cases h2 : expectUnderscore (r2.drop 8) with
      | none => rw [h2] at h; simp at h
      | some t =>
        rw [h2] at h
        simp only at h
        cases h3 : extOk t with
        | none => rw [h3] at h; simp at h
        | some pr =>
          rw [h3] at h
          obtain ⟨pg3, pext⟩ := pr
          simp only [Option.some_inj, Prod.mk.injEq] at h
          obtain ⟨rfl, rfl, rfl, rfl⟩ := h
          have hdropEq : s.drop i = '_' :: r2 := expectUnderscore_eq_some.mp h1
          have hdrop2Eq : r2.drop 8 = '_' :: t := expectUnderscore_eq_some.mp h2
          refine ⟨rfl, t, ?_, h3, hg1ne, hg1nl, hdlen, hddig⟩
          have hr2 : r2.take 8 ++ '_' :: t = r2 := by
            rw [← hdrop2Eq]; exact List.take_append_drop 8 r2
          rw [hr2, ← hdropEq]
          exact (List.take_append_drop i s).symm
    · simp at h

theorem tryG1_complete {s a d t g3 ext : List Char}
    (hs : s = a ++ '_' :: (d ++ '_' :: t)) (ha : a ≠ []) (hanl : noNl a = true)
    (hd8 : d.length = 8) (hddig : d.all pyDigit = true)
    (hext : extOk t = some (g3, ext)) :
    tryG1 s a.length = some (a, d, g3, ext) := by
  have htake : s.take a.length = a := by rw [hs]; exact List.take_left _ _
  have hdropa : s.drop a.length = '_' :: (d ++ '_' :: t) := by
    rw [hs]; exact List.drop_left _ _
  have htake8 : (d ++ '_' :: t).take 8 = d := by
    rw [← hd8]; exact List.take_left _ _
  have hdrop8 : (d ++ '_' :: t).drop 8 = '_' :: t := by
    rw [← hd8]; exact List.drop_left _ _
  rw [tryG1, hdropa, expectUnderscore_cons_underscore]
  simp only [htake, htake8, hdrop8, expectUnderscore_cons_underscore, hext]
  rw [if_pos ⟨ha, hanl, hd8, hddig⟩]

theorem vbSearch_sound {s : List Char} {g : List Char × List Char × List Char × List Char} :
    ∀ {n : Nat}, vbSearch s n = some g →
      ∃ i, i ≤ n ∧ tryG1 s i = some g ∧ ∀ j, i < j → j ≤ n → tryG1 s j = none := by
  intro n
  induction n with
  | zero => intro h; simp [vbSearch] at h
  | succ m ih =>
    intro h
    rw [vbSearch] at h
    cases htop : tryG1 s (m + 1) with
    | some g0 =>
      rw [htop] at h
      simp only [Option.some_inj] at h
      subst h
      exact ⟨m + 1, Nat.le_refl _, htop,
        fun j hj1 hj2 => absurd (Nat.lt_of_lt_of_le hj1 hj2) (Nat.lt_irrefl _)⟩
    | none =>
      rw [htop] at h
      simp only at h
      obtain ⟨i, hi, hsome, hnone⟩ := ih h
      refine ⟨i, Nat.le_trans hi (Nat.le_succ m), hsome, fun j hj1 hj2 => ?_⟩
      rcases Nat.lt_or_ge j (m + 1) with hlt | hge
      · exact hnone j hj1 (Nat.lt_succ_iff.mp hlt)
      · have hj : j = m + 1 := Nat.le_antisymm hj2 hge
        rw [hj]; exact htop

/-- Soundness of the Variant-B matcher: a successful match decomposes the
filename into the four groups, up to a single `$`-tolerated trailing
newline. -/
theorem vb_match_decomp {s g1 d g3 ext : List Char}
    (h : matches_old_filename_format s = some (g1, d, g3, ext)) :
    ∃ w nl, ext = '.' :: w ∧ g1 ≠ [] ∧ noNl g1 = true ∧ d.length = 8 ∧
      d.all pyDigit = true ∧ g3 ≠ [] ∧ noNl g3 = true ∧ w ≠ [] ∧
      w.all pyWord = true ∧ (nl = [] ∨ nl = ['\n']) ∧
      s = g1 ++ '_' :: (d ++ '_' :: (g3 ++ '.' :: w ++ nl)) := by
  obtain ⟨i, hi, hsome, _⟩ := vbSearch_sound h
  obtain ⟨htake, t, hs, hext, hg1, hnl1, hd8, hdd⟩ := tryG1_sound hsome
  obtain ⟨w, nl, hexteq, hg3, hnl3, hw, hword, hnlor, hteq⟩ := extOk_sound hext
  exact ⟨w, nl, hexteq, hg1, hnl1, hd8, hdd, hg3, hnl3, hw, hword, hnlor,
    by rw [hs, hteq]⟩

/-- Greediness of the Variant-B matcher: the first group of the returned
match is at least as long as that of any other decomposition satisfiable by
the pattern, so the date binds to the last eligible 8-digit run. -/
theorem vb_match_maximal {s g1 d g3 ext : List Char}
    (h : matches_old_filename_format s = some (g1, d, g3, ext))
    {a e t : List Char} (hs : s = a ++ '_' :: (e ++ '_' :: t)) (ha : a ≠ [])
    (hanl : noNl a = true) (he8 : e.length = 8) (hedig : e.all pyDigit = true)
    (hext : extOk t ≠ none) :
    a.length ≤ g1.length := by
  obtain ⟨i, hi, hsome, hnone⟩ := vbSearch_sound h
  obtain ⟨htake, _⟩ := tryG1_sound hsome
  have hglen : g1.length = i := by
    rw [htake, List.length_take]
    exact min_eq_left hi
  cases hpr : extOk t with
  | none => exact absurd hpr hext
  | some pr =>
    obtain ⟨pg3, pext⟩ := pr
    have htry := tryG1_complete hs ha hanl he8 hedig hpr
    by_contra hgt
    push_neg at hgt
    have halen : a.length ≤ s.length := by
      rw [hs, List.length_append]; simp
    have hcontra := hnone a.length (by omega) halen
    rw [htry] at hcontra
    exact absurd hcontra (by simp)

/-! ## Variant A lemmas -/

theorem expectUnderscore_cons_ne (c : Char) (l : List Char) (hc : c ≠ '_') :
    expectUnderscore (c :: l) = none := by
  simp [expectUnderscore, hc]

theorem vaExtSplit_complete (txt w : List Char)
    (htxt : txt ≠ []) (hw : w ≠ []) (hword : w.all pyWord = true) :
    vaExtSplit (txt ++ '.' :: w) = some (txt, '.' :: w) := by
  have hrev : (txt ++ '.' :: w).reverse = w.reverse ++ '.' :: txt.reverse := by simp
  have hallrev : (w.reverse).all (fun c => decide (c ≠ '.')) = true := by
    rw [List.all_eq_true]
    intro x hx
    rw [List.mem_reverse] at hx
    exact decide_eq_true (pyWord_ne_dot (List.all_eq_true.mp hword x hx))
  have hdot : (fun c => decide (c ≠ '.')) '.' = false := by decide
  obtain ⟨htake, hdrop⟩ :=
    takeWhile_append_stop (fun c => decide (c ≠ '.')) w.reverse '.' txt.reverse hallrev hdot
  rw [vaExtSplit, hrev, hdrop]
  simp only [htake]
  simp [htxt, hw, hword]

theorem seg_take_eq (seg X : List Char) (n : Nat) (h : seg.length = n) :
    (seg ++ X).take n = seg ∧ (seg ++ X).drop n = X := by
  subst h
  exact ⟨List.take_left _ _, List.drop_left _ _⟩

theorem seg_take_lt (seg X : List Char) (n : Nat) (h : seg.length < n) :
    ((seg ++ '_' :: X).take n).all pyDigit = false := by
  obtain ⟨k, hk⟩ : ∃ k, n - seg.length = k + 1 := ⟨n - seg.length - 1, by omega⟩
  rw [List.take_append_eq_append_take, List.take_of_length_le (by omega), hk,
    List.take_succ_cons, List.all_append, List.all_cons]
  rw [show pyDigit '_' = false from rfl]
  simp

theorem seg_drop_gt (seg X : List Char) (n : Nat) (h : n < seg.length)
    (hd : seg.all pyDigit = true) :
    ∃ e es, (seg ++ X).drop n = e :: es ∧ pyDigit e = true := by
  rw [List.drop_append_eq_append_drop]
  have h0 : n - seg.length = 0 := by omega
  rw [h0, List.drop_zero]
  cases hse : seg.drop n with
  | nil =>
    have hlen := List.length_drop n seg
    rw [hse] at hlen
    simp at hlen
    omega
  | cons e es =>
    refine ⟨e, es ++ X, by simp, ?_⟩
    have he : e ∈ seg := List.drop_subset n seg (hse ▸ List.mem_cons_self e es)
    exact List.all_eq_true.mp hd e he

theorem va_match_eq {id d txt w : List Char}
    (hid4 : id.length = 4) (hiddig : id.all pyDigit = true)
    (hd8 : d.length = 8) (hddig : d.all pyDigit = true)
    (htxt : txt ≠ []) (hw : w ≠ []) (hword : w.all pyWord = true) :
    matches_pattern (vaShape id d txt w) = some (id, d, txt, '.' :: w) := by
  have htk : (vaShape id d txt w).take 4 = ['I', 'M', 'G', '_'] := rfl
  have hdp : (vaShape id d txt w).drop 4 = id ++ '_' :: (d ++ '_' :: (txt ++ '.' :: w)) := rfl
  obtain ⟨hida, hidb⟩ := seg_take_eq id ('_' :: (d ++ '_' :: (txt ++ '.' :: w))) 4 hid4
  obtain ⟨hda, hdb⟩ := seg_take_eq d ('_' :: (txt ++ '.' :: w)) 8 hd8
  simp only [matches_pattern, htk, hdp]
  rw [if_pos trivial, hida, hidb, if_pos ⟨hid4, hiddig⟩, expectUnderscore_cons_underscore]
  simp only [hda, hdb]
  rw [if_pos ⟨hd8, hddig⟩, expectUnderscore_cons_underscore]
  simp only [vaExtSplit_complete txt w htxt hw hword]

theorem va_match_none {id d txt w : List Char}
    (hiddig : id.all pyDigit = true) (hddig : d.all pyDigit = true)
    (hne : id.length ≠ 4 ∨ (id.length = 4 ∧ d.length ≠ 8)) :
    matches_pattern (vaShape id d txt w) = none := by
  have htk : (vaShape id d txt w).take 4 = ['I', 'M', 'G', '_'] := rfl
  have hdp : (vaShape id d txt w).drop 4 = id ++ '_' :: (d ++ '_' :: (txt ++ '.' :: w)) := rfl
  simp only [matches_pattern, htk, hdp]
  rw [if_pos trivial]
  rcases hne with hid | ⟨hid4, hd⟩
  · rcases Nat.lt_or_ge id.length 4 with hlt | hge
    · rw [if_neg]
      intro hcond
      have hfalse := seg_take_lt id (d ++ '_' :: (txt ++ '.' :: w)) 4 hlt
      rw [hcond.2] at hfalse
      exact Bool.true_eq_false ▸ hfalse
    · have hgt : 4 < id.length := by omega
      obtain ⟨e, es, hdropeq, hedig⟩ :=
        seg_drop_gt id ('_' :: (d ++ '_' :: (txt ++ '.' :: w))) 4 hgt hiddig
      by_cases hcond : ((id ++ '_' :: (d ++ '_' :: (txt ++ '.' :: w))).take 4).length = 4 ∧
          ((id ++ '_' :: (d ++ '_' :: (txt ++ '.' :: w))).take 4).all pyDigit = true
      · rw [if_pos hcond, hdropeq,
          expectUnderscore_cons_ne e es (pyDigit_ne_underscore hedig)]
      · rw [if_neg hcond]
  · obtain ⟨hida, hidb⟩ := seg_take_eq id ('_' :: (d ++ '_' :: (txt ++ '.' :: w))) 4 hid4
    rw [hida, hidb, if_pos ⟨hid4, hiddig⟩, expectUnderscore_cons_underscore]
    simp only
    rcases Nat.lt_or_ge d.length 8 with hlt | hge
    · rw [if_neg]
      intro hcond
      have hfalse := seg_take_lt d (txt ++ '.' :: w) 8 hlt
      rw [hcond.2] at hfalse
      exact Bool.true_eq_false ▸ hfalse
    · have hgt : 8 < d.length := by omega
      obtain ⟨e, es, hdropeq, hedig⟩ :=
        seg_drop_gt d ('_' :: (txt ++ '.' :: w)) 8 hgt hddig
      by_cases hcond : ((d ++ '_' :: (txt ++ '.' :: w)).take 8).length = 8 ∧
          ((d ++ '_' :: (txt ++ '.' :: w)).take 8).all pyDigit = true
      · rw [if_pos hcond, hdropeq,
          expectUnderscore_cons_ne e es (pyDigit_ne_underscore hedig)]
      · rw [if_neg hcond]

theorem va_match_sound {s id d txt ext : List Char}
    (h : matches_pattern s = some (id, d, txt, ext)) :
    id.length = 4 ∧ id.all pyDigit = true ∧ d.length = 8 ∧ d.all pyDigit = true := by
  simp only [matches_pattern] at h
  split at h
  · split at h
    · rename_i hcond1
      cases h2 : expectUnderscore ((s.drop 4).drop 4) with
      | none => rw [h2] at h; simp at h
      | some r3 =>
        rw [h2] at h
        simp only at h
        split at h
        · rename_i hcond2
          cases h3 : expectUnderscore (r3.drop 8) with
          | none => rw [h3] at h; simp at h
          | some t =>
            rw [h3] at h
            simp only at h
            cases h4 : vaExtSplit t with
            | none => rw [h4] at h; simp at h
            | some pr =>
              rw [h4] at h
              simp only [Option.some_inj, Prod.mk.injEq] at h
              obtain ⟨rfl, rfl, rfl, rfl⟩ := h
              exact ⟨hcond1.1, hcond1.2, hcond2.1, hcond2.2⟩
        · simp at h
    · simp at h
  · simp at h

/-- C1: over filenames of the Variant A shape `IMG_<id>_<date>_<text>.<w>`
(digit id and date segments, non-empty free text, word-character extension),
the Variant A matcher succeeds iff the id segment has exactly 4 digits and
the date segment exactly 8; in particular a 3- or 5-digit id never
matches. -/
theorem va_match_succeeds_iff_id4_date8
    (id d txt w : List Char)
    (hidne : id ≠ []) (hiddig : id.all pyDigit = true)
    (hdne : d ≠ []) (hddig : d.all pyDigit = true)
    (htxt : txt ≠ []) (hw : w ≠ []) (hword : w.all pyWord = true) :
    (matches_pattern (vaShape id d txt w) ≠ none ↔
      id.length = 4 ∧ d.length = 8) ∧
    ((id.length = 3 ∨ id.length = 5) →
      matches_pattern (vaShape id d txt w) = none) := by
  constructor
  · constructor
    · intro hne
      by_cases h4 : id.length = 4
      · by_cases h8 : d.length = 8
        · exact ⟨h4, h8⟩
        · exact absurd (va_match_none hiddig hddig (Or.inr ⟨h4, h8⟩)) hne
      · exact absurd (va_match_none hiddig hddig (Or.inl h4)) hne
    · rintro ⟨h4, h8⟩
      rw [va_match_eq h4 hiddig h8 hddig htxt hw hword]
      simp
  · intro h35
    apply va_match_none hiddig hddig
    left
    rcases h35 with h | h <;> omega

/-- Witness for C1 at the concrete components of
`IMG_0001_20231215_Vacation.jpg` and its 3- and 5-digit variations. -/
theorem va_match_succeeds_iff_id4_date8_applied :
    (matches_pattern (("IMG_0001_20231215_Vacation.jpg" : String).data) ≠ none) ∧
    matches_pattern (("IMG_001_20231215_Vacation.jpg" : String).data) = none ∧
    matches_pattern (("IMG_00001_20231215_Vacation.jpg" : String).data) = none := by
  have h1 := va_match_succeeds_iff_id4_date8 (("0001" : String).data)
    (("20231215" : String).data) (("Vacation" : String).data) (("jpg" : String).data)
    (by decide) (by decide) (by decide) (by decide) (by decide) (by decide) (by decide)
  have h2 := va_match_succeeds_iff_id4_date8 (("001" : String).data)
    (("20231215" : String).data) (("Vacation" : String).data) (("jpg" : String).data)
    (by decide) (by decide) (by decide) (by decide) (by decide) (by decide) (by decide)
  have h3 := va_match_succeeds_iff_id4_date8 (("00001" : String).data)
    (("20231215" : String).data) (("Vacation" : String).data) (("jpg" : String).data)
    (by decide) (by decide) (by decide) (by decide) (by decide) (by decide) (by decide)
  refine ⟨?_, ?_, ?_⟩
  · exact h1.1.mpr ⟨by decide, by decide⟩
  · exact h2.2 (Or.inl (by decide))
  · exact h3.2 (Or.inr (by decide))

/-- C5: for every filename of the Variant A shape, the Variant A builder
produces exactly `date ++ "_" ++ text ++ "_IMG_" ++ id ++ ext`, with the
captured extension (dot included) appended verbatim. -/
theorem va_builder_output_layout
    (id d txt w : List Char)
    (hid4 : id.length = 4) (hiddig : id.all pyDigit = true)
    (hd8 : d.length = 8) (hddig : d.all pyDigit = true)
    (htxt : txt ≠ []) (hw : w ≠ []) (hword : w.all pyWord = true) :
    va_generate_new_filename (vaShape id d txt w) =
      some (d ++ '_' :: (txt ++ '_' :: ('I' :: 'M' :: 'G' :: '_' :: id) ++ '.' :: w)) := by
  rw [va_generate_new_filename, va_match_eq hid4 hiddig hd8 hddig htxt hw hword]

/-- Witness for C5 at `IMG_0001_20231215_Vacation.jpg`, including the
uppercase-extension case `IMG_0001_20231215_Test.PNG`. -/
theorem va_builder_output_layout_applied :
    va_generate_new_filename (("IMG_0001_20231215_Vacation.jpg" : String).data) =
      some (("20231215_Vacation_IMG_0001.jpg" : String).data) ∧
    va_generate_new_filename (("IMG_0001_20231215_Test.PNG" : String).data) =
      some (("20231215_Test_IMG_0001.PNG" : String).data) := by
  have h1 := va_builder_output_layout (("0001" : String).data)
    (("20231215" : String).data) (("Vacation" : String).data) (("jpg" : String).data)
    (by decide) (by decide) (by decide) (by decide) (by decide) (by decide) (by decide)
  have h2 := va_builder_output_layout (("0001" : String).data)
    (("20231215" : String).data) (("Test" : String).data) (("PNG" : String).data)
    (by decide) (by decide) (by decide) (by decide) (by decide) (by decide) (by decide)
  constructor
  · rw [show (("IMG_0001_20231215_Vacation.jpg" : String).data) =
      vaShape (("0001" : String).data) (("20231215" : String).data)
        (("Vacation" : String).data) (("jpg" : String).data) from by decide, h1]
    decide
  · rw [show (("IMG_0001_20231215_Test.PNG" : String).data) =
      vaShape (("0001" : String).data) (("20231215" : String).data)
        (("Test" : String).data) (("PNG" : String).data) from by decide, h2]
    decide

/-- C8: a name produced by the Variant A builder (the target layout, which
starts with the 8-digit date) never re-matches the Variant A source pattern
(which demands a literal `IMG_` head), so repeated runs cannot rename a file
twice; and the concrete target-layout name `20231215_Vacation_IMG_0001.jpg`
matches neither the Variant A pattern nor the source pattern of
src/image_rename.py. -/
theorem target_layout_no_rematch :
    (∀ s r : List Char, va_generate_new_filename s = some r →
      matches_pattern r = none) ∧
    matches_old_filename_format (("20231215_Vacation_IMG_0001.jpg" : String).data) =
      none := by
  constructor
  · intro s r h
    rw [va_generate_new_filename] at h
    cases hm : matches_pattern s with
    | none => rw [hm] at h; simp at h
    | some g =>
      rw [hm] at h
      obtain ⟨id, d, txt, ext⟩ := g
      simp only [Option.some_inj] at h
      obtain ⟨_, _, hd8, hddig⟩ := va_match_sound hm
      subst h
      have htk : (d ++ '_' :: (txt ++ '_' :: ('I' :: 'M' :: 'G' :: '_' :: id) ++ ext)).take 4 =
          d.take 4 := by
        rw [List.take_append_eq_append_take, show 4 - d.length = 0 from by omega,
          List.take_zero, List.append_nil]
      have hne : d.take 4 ≠ ['I', 'M', 'G', '_'] := by
        intro he
        have hmem : 'I' ∈ d.take 4 := by rw [he]; simp
        have : pyDigit 'I' = true :=
          List.all_eq_true.mp hddig 'I' (List.take_subset 4 d hmem)
        exact absurd this (by decide)
      simp only [matches_pattern, htk]
      rw [if_neg hne]
  · decide

/-- Witness for C8: the Variant A rename of `IMG_0001_20231215_Vacation.jpg`
is `20231215_Vacation_IMG_0001.jpg`, and the theorem shows it cannot match
again. -/
theorem target_layout_no_rematch_applied :
    matches_pattern (("20231215_Vacation_IMG_0001.jpg" : String).data) = none := by
  exact target_layout_no_rematch.1
    (("IMG_0001_20231215_Vacation.jpg" : String).data)
    (("20231215_Vacation_IMG_0001.jpg" : String).data) (by decide)

/-! ## Trailing extensions and the source matcher -/

theorem all_takeWhile {α} (p : α → Bool) (l : List α) : (l.takeWhile p).all p = true := by
  induction l with
  | nil => rfl
  | cons a l ih =>
    rw [List.takeWhile_cons]
    by_cases h : p a = true
    · simp [h, ih]
    · simp [h]

theorem hasTrailingExt_iff (s : List Char) :
    hasTrailingExt s = true ↔
      ∃ p w, s = p ++ '.' :: w ∧ w ≠ [] ∧ w.all pyWord = true := by
  constructor
  · intro h
    cases hdrop : s.reverse.dropWhile (fun c => pyWord c) with
    | nil => rw [hasTrailingExt, hdrop] at h; simp at h
    | cons c rest =>
      rw [hasTrailingExt, hdrop] at h
      simp only [Bool.and_eq_true, decide_eq_true_eq, Bool.not_eq_true'] at h
      obtain ⟨hc, hne⟩ := h
      subst hc
      have hsplit : s.reverse.takeWhile (fun c => pyWord c) ++ '.' :: rest = s.reverse :=
        by rw [← hdrop]; exact List.takeWhile_append_dropWhile _ _
      have hallT : (s.reverse.takeWhile (fun c => pyWord c)).all (fun c => pyWord c) = true :=
        all_takeWhile _ _
      have hneT : (s.reverse.takeWhile (fun c => pyWord c)).isEmpty = false := hne
      generalize hT : s.reverse.takeWhile (fun c => pyWord c) = T at hsplit hallT hneT
      have hs : s = rest.reverse ++ '.' :: T.reverse := by
        have h2 := congrArg List.reverse hsplit
        rw [List.reverse_reverse] at h2
        rw [← h2]
        simp
      refine ⟨rest.reverse, T.reverse, hs, ?_, ?_⟩
      · intro hrev
        have hTnil : T = [] := by
          rw [← List.reverse_reverse T, hrev]; rfl
        rw [hTnil] at hneT
        simp at hneT
      · rw [List.all_eq_true]
        intro x hx
        rw [List.mem_reverse] at hx
        exact List.all_eq_true.mp hallT x hx
  · rintro ⟨p, w, rfl, hw, hword⟩
    have hrev : (p ++ '.' :: w).reverse = w.reverse ++ '.' :: p.reverse := by simp
    have hall : (w.reverse).all (fun c => pyWord c) = true := by
      rw [List.all_eq_true]
      intro x hx
      rw [List.mem_reverse] at hx
      exact List.all_eq_true.mp hword x hx
    have hdotw : (fun c => pyWord c) '.' = false := by decide
    obtain ⟨htake, hdrop⟩ :=
      takeWhile_append_stop (fun c => pyWord c) w.reverse '.' p.reverse hall hdotw
    rw [hasTrailingExt, hrev, hdrop]
    simp only [htake, decide_eq_true_eq]
    simp [hw]

theorem stripNl_append_dot_word (x w : List Char) (hw : w ≠ [])
    (hword : w.all pyWord = true) :
    stripNl (x ++ '.' :: w) = x ++ '.' :: w := by
  apply stripNl_no_nl_end
  cases w with
  | nil => exact absurd rfl hw
  | cons y ys =>
    have hne : (y :: ys) ≠ [] := by simp
    have hlast : (x ++ '.' :: y :: ys).getLast? = some ((y :: ys).getLast hne) := by
      rw [getLast?_append_right x (by simp)]
      change (['.'] ++ (y :: ys)).getLast? = _
      rw [getLast?_append_right ['.'] hne]
      exact List.getLast?_eq_getLast _ hne
    rw [hlast]
    intro hcontra
    exact pyWord_ne_nl (List.all_eq_true.mp hword _ (List.getLast_mem hne))
      (Option.some_inj.mp hcontra)

/-- C9 (amended): a successful source-pattern match decomposes the filename
into its four groups with the documented shapes; the groups reassemble to
the filename up to a single trailing newline tolerated by `$`, and exactly
when the filename does not end in a newline. -/
theorem vb_match_sound_groups (s g1 d g3 ext : List Char)
    (h : matches_old_filename_format s = some (g1, d, g3, ext)) :
    ∃ w nl, ext = '.' :: w ∧ w ≠ [] ∧ w.all pyWord = true ∧ g1 ≠ [] ∧ g3 ≠ [] ∧
      d.length = 8 ∧ d.all pyDigit = true ∧ (nl = [] ∨ nl = ['\n']) ∧
      s = g1 ++ '_' :: (d ++ '_' :: (g3 ++ ext ++ nl)) ∧
      (s.getLast? ≠ some '\n' → s = g1 ++ '_' :: (d ++ '_' :: (g3 ++ ext))) := by
  obtain ⟨w, nl, hexteq, hg1, _, hd8, hdd, hg3, _, hw, hword, hnlor, hs⟩ :=
    vb_match_decomp h
  subst hexteq
  refine ⟨w, nl, rfl, hw, hword, hg1, hg3, hd8, hdd, hnlor, hs, ?_⟩
  intro hlast
  rcases hnlor with rfl | rfl
  · rw [hs]; simp
  · exfalso
    apply hlast
    have hassoc : s = (g1 ++ '_' :: (d ++ '_' :: (g3 ++ '.' :: w))) ++ ['\n'] := by
      rw [hs]; simp
    rw [hassoc, List.getLast?_concat]

/-- Witness for C9 at `IMG_0001_20231215_Vacation.jpg`. -/
theorem vb_match_sound_groups_applied :
    ∃ w nl, (".jpg" : String).data = '.' :: w ∧ w ≠ [] ∧ w.all pyWord = true ∧
      ("IMG_0001" : String).data ≠ [] ∧ ("Vacation" : String).data ≠ [] ∧
      (("20231215" : String).data).length = 8 ∧
      (("20231215" : String).data).all pyDigit = true ∧
      (nl = [] ∨ nl = ['\n']) ∧
      ("IMG_0001_20231215_Vacation.jpg" : String).data =
        ("IMG_0001" : String).data ++ '_' :: (("20231215" : String).data ++ '_' ::
          (("Vacation" : String).data ++ (".jpg" : String).data ++ nl)) ∧
      ((("IMG_0001_20231215_Vacation.jpg" : String).data).getLast? ≠ some '\n' →
        ("IMG_0001_20231215_Vacation.jpg" : String).data =
          ("IMG_0001" : String).data ++ '_' :: (("20231215" : String).data ++ '_' ::
            (("Vacation" : String).data ++ (".jpg" : String).data))) :=
  vb_match_sound_groups _ _ _ _ _ (by decide)

/-- Counterexample to C9 as stated: on `A_12345678_B.c\n` the matcher
succeeds, but the reassembled groups differ from the original filename (the
trailing newline is lost). -/
theorem vb_groups_reassembly_drops_newline :
    matches_old_filename_format (("A_12345678_B.c\n" : String).data) =
      some (("A" : String).data, ("12345678" : String).data, ("B" : String).data,
        (".c" : String).data) ∧
    ("A" : String).data ++ '_' :: (("12345678" : String).data ++ '_' ::
      (("B" : String).data ++ (".c" : String).data)) ≠
      ("A_12345678_B.c\n" : String).data := by
  decide

/-- C10 (amended): the generated filename has the length of the original,
except that a single trailing newline (tolerated by `$` and absent from the
captured groups) is dropped; the lengths are equal whenever the filename
does not end in a newline. -/
theorem generated_length_relation (s t : List Char)
    (h : generate_new_filename s = some t) :
    (t.length = s.length ∨ t.length + 1 = s.length) ∧
    (s.getLast? ≠ some '\n' → t.length = s.length) := by
  rw [generate_new_filename] at h
  cases hm : matches_old_filename_format s with
  | none => rw [hm] at h; simp at h
  | some g =>
    rw [hm] at h
    obtain ⟨g1, d, g3, ext⟩ := g
    simp only [Option.some_inj] at h
    subst h
    obtain ⟨w, nl, hexteq, hg1, _, hd8, hdd, hg3, _, hw, hword, hnlor, hs⟩ :=
      vb_match_decomp hm
    subst hexteq
    constructor
    · rcases hnlor with rfl | rfl
      · left
        rw [hs]
        simp [List.length_append]
        omega
      · right
        rw [hs]
        simp [List.length_append]
        omega
    · intro hlast
      rcases hnlor with rfl | rfl
      · rw [hs]
        simp [List.length_append]
        omega
      · exfalso
        apply hlast
        have hassoc : s = (g1 ++ '_' :: (d ++ '_' :: (g3 ++ '.' :: w))) ++ ['\n'] := by
          rw [hs]; simp
        rw [hassoc, List.getLast?_concat]

/-- Witness for C10 at `IMG_0001_20231215_Vacation.jpg`. -/
theorem generated_length_relation_applied :
    ((("20231215_Vacation_IMG_0001.jpg" : String).data).length =
        (("IMG_0001_20231215_Vacation.jpg" : String).data).length ∨
      (("20231215_Vacation_IMG_0001.jpg" : String).data).length + 1 =
        (("IMG_0001_20231215_Vacation.jpg" : String).data).length) ∧
    ((("IMG_0001_20231215_Vacation.jpg" : String).data).getLast? ≠ some '\n' →
      (("20231215_Vacation_IMG_0001.jpg" : String).data).length =
        (("IMG_0001_20231215_Vacation.jpg" : String).data).length) :=
  generated_length_relation _ _ (by decide)

/-- Counterexample to C10 as stated: for `A_12345678_B.c\n` the generated
name is one character shorter than the original. -/
theorem generated_length_not_preserved :
    generate_new_filename (("A_12345678_B.c\n" : String).data) =
      some (("12345678_B_A.c" : String).data) ∧
    (("12345678_B_A.c" : String).data).length ≠
      (("A_12345678_B.c\n" : String).data).length := by
  decide

/-- C4 (amended): on every successful match the date group is exactly 8
digits bounded by underscores on both sides; the greedy first group makes
the date bind to the last eligible bounded 8-digit run (no other eligible
decomposition has a longer leading free-text); and a filename that does not
end with an extension — up to the single trailing newline tolerated by `$` —
never matches. -/
theorem vb_date_bounded_greedy_last (s : List Char) :
    (∀ g1 d g3 ext, matches_old_filename_format s = some (g1, d, g3, ext) →
      (∃ t, s = g1 ++ '_' :: (d ++ '_' :: t) ∧ d.length = 8 ∧
        d.all pyDigit = true ∧ extOk t = some (g3, ext)) ∧
      (∀ a e t2, s = a ++ '_' :: (e ++ '_' :: t2) → a ≠ [] → noNl a = true →
        e.length = 8 → e.all pyDigit = true → extOk t2 ≠ none →
        a.length ≤ g1.length)) ∧
    (hasTrailingExt (stripNl s) = false → matches_old_filename_format s = none) := by
  constructor
  · intro g1 d g3 ext h
    constructor
    · obtain ⟨i, hi, hsome, _⟩ := vbSearch_sound h
      obtain ⟨_, t, hs, hext, _, _, hd8, hdd⟩ := tryG1_sound hsome
      exact ⟨t, hs, hd8, hdd, hext⟩
    · intro a e t2 hs ha hanl he8 hedig hext
      exact vb_match_maximal h hs ha hanl he8 hedig hext
  · intro hnoext
    cases hm : matches_old_filename_format s with
    | none => rfl
    | some g =>
      exfalso
      obtain ⟨g1, d, g3, ext⟩ := g
      obtain ⟨w, nl, hexteq, hg1, _, hd8, hdd, hg3, _, hw, hword, hnlor, hs⟩ :=
        vb_match_decomp hm
      have hstrip : stripNl s = (g1 ++ '_' :: (d ++ '_' :: g3)) ++ '.' :: w := by
        rcases hnlor with rfl | rfl
        · have hform : s = (g1 ++ '_' :: (d ++ '_' :: g3)) ++ '.' :: w := by
            rw [hs]; simp
          rw [hform, stripNl_append_dot_word _ _ hw hword]
        · have hform : s = ((g1 ++ '_' :: (d ++ '_' :: g3)) ++ '.' :: w) ++ ['\n'] := by
            rw [hs]; simp
          rw [hform, stripNl_concat_nl]
      have htrue : hasTrailingExt (stripNl s) = true :=
        (hasTrailingExt_iff _).mpr ⟨g1 ++ '_' :: (d ++ '_' :: g3), w, hstrip, hw, hword⟩
      rw [htrue] at hnoext
      exact Bool.true_eq_false ▸ hnoext

/-- Witness for C4: on `A_11111111_B_22222222_C.jpg` the greedy bound shows
the earlier eligible run `11111111` yields a shorter first group than the
matched one (`A` versus `A_11111111_B`); and `NoExtension` cannot match. -/
theorem vb_date_bounded_greedy_last_applied :
    (("A" : String).data).length ≤ (("A_11111111_B" : String).data).length ∧
    matches_old_filename_format (("NoExtension" : String).data) = none := by
  constructor
  · exact ((vb_date_bounded_greedy_last
      (("A_11111111_B_22222222_C.jpg" : String).data)).1
      (("A_11111111_B" : String).data) (("22222222" : String).data)
      (("C" : String).data) ((".jpg" : String).data) (by decide)).2
      (("A" : String).data) (("11111111" : String).data)
      (("B_22222222_C.jpg" : String).data)
      (by decide) (by decide) (by decide) (by decide) (by decide) (by decide)
  · exact (vb_date_bounded_greedy_last (("NoExtension" : String).data)).2 (by decide)

/-- Counterexample to C4 as stated: `A_12345678_B.c\n` has no trailing
extension (it ends in a newline, not in a dot plus word characters), yet the
matcher succeeds on it. -/
theorem match_without_trailing_extension :
    matches_old_filename_format (("A_12345678_B.c\n" : String).data) ≠ none ∧
    hasTrailingExt (("A_12345678_B.c\n" : String).data) = false ∧
    ¬ ∃ p w, ("A_12345678_B.c\n" : String).data = p ++ '.' :: w ∧ w ≠ [] ∧
      w.all pyWord = true := by
  refine ⟨by decide, by decide, ?_⟩
  intro hex
  have htrue := (hasTrailingExt_iff (("A_12345678_B.c\n" : String).data)).mpr hex
  exact absurd htrue (by decide)

/-! ## Batch statistics -/

theorem processFile_step (acc : Stats × FS) (p : FsPath) (dr : Bool)
    (oracle : FsPath → Bool) :
    (processFile acc p dr oracle).1.total = acc.1.total + 1 ∧
    (processFile acc p dr oracle).1.renamed + (processFile acc p dr oracle).1.skipped +
      (processFile acc p dr oracle).1.errors =
      acc.1.renamed + acc.1.skipped + acc.1.errors + 1 ∧
    (processFile acc p dr oracle).1.error = acc.1.error := by
  simp only [processFile]
  cases hb : classify (rename_file acc.2 p dr (oracle p)).1 with
  | renamed => simp; omega
  | skipped => simp; omega
  | errors => simp; omega

theorem processFiles_inv (files : List FsPath) :
    ∀ (fs : FS) (st : Stats) (dr : Bool) (oracle : FsPath → Bool),
      (processFiles fs files dr oracle st).1.total = st.total + files.length ∧
      (processFiles fs files dr oracle st).1.renamed +
        (processFiles fs files dr oracle st).1.skipped +
        (processFiles fs files dr oracle st).1.errors =
        st.renamed + st.skipped + st.errors + files.length ∧
      (processFiles fs files dr oracle st).1.error = st.error := by
  induction files with
  | nil => intro fs st dr oracle; simp [processFiles]
  | cons p ps ih =>
    intro fs st dr oracle
    obtain ⟨hs1, hs2, hs3⟩ := processFile_step (st, fs) p dr oracle
    obtain ⟨ih1, ih2, ih3⟩ :=
      ih (processFile (st, fs) p dr oracle).2 (processFile (st, fs) p dr oracle).1 dr oracle
    have hfold : processFiles fs (p :: ps) dr oracle st =
        processFiles (processFile (st, fs) p dr oracle).2 ps dr oracle
          (processFile (st, fs) p dr oracle).1 := by
      rw [processFiles, processFiles, List.foldl_cons]
    rw [hfold]
    refine ⟨?_, ?_, ?_⟩
    · rw [ih1, hs1]; simp; omega
    · rw [ih2, hs2]; simp; omega
    · rw [ih3, hs3]

theorem rename_dir_stats (fs : FS) (dir : List Char) (recursive dry_run : Bool)
    (oracle : FsPath → Bool) (hdir : dir ∈ fs.dirs) :
    rename_files_in_directory fs dir recursive dry_run oracle =
      processFiles fs (candidateFiles fs dir recursive) dry_run oracle
        ⟨0, 0, 0, 0, false⟩ := by
  rw [rename_files_in_directory,
    if_neg (not_not_intro (show dirEx fs dir from Or.inl hdir)),
    if_neg (not_not_intro hdir)]

/-- C7: over an existing directory the final statistics partition the
candidates: `total = renamed + skipped + errors`, `total` counts every
candidate file exactly once, and no directory-level error is flagged. -/
theorem batch_stats_partition (fs : FS) (dir : List Char) (recursive dry_run : Bool)
    (oracle : FsPath → Bool) (hdir : dir ∈ fs.dirs) :
    (rename_files_in_directory fs dir recursive dry_run oracle).1.total =
      (rename_files_in_directory fs dir recursive dry_run oracle).1.renamed +
      (rename_files_in_directory fs dir recursive dry_run oracle).1.skipped +
      (rename_files_in_directory fs dir recursive dry_run oracle).1.errors ∧
    (rename_files_in_directory fs dir recursive dry_run oracle).1.total =
      (candidateFiles fs dir recursive).length ∧
    (rename_files_in_directory fs dir recursive dry_run oracle).1.error = false := by
  rw [rename_dir_stats fs dir recursive dry_run oracle hdir]
  obtain ⟨h1, h2, h3⟩ :=
    processFiles_inv (candidateFiles fs dir recursive) fs ⟨0, 0, 0, 0, false⟩
      dry_run oracle
  refine ⟨?_, ?_, ?_⟩
  · simp only at h1 h2
    omega
  · simp only at h1
    omega
  · simpa using h3

/-- Witness for C7 on the concrete `/pics` directory with one matching and
one non-matching file. -/
theorem batch_stats_partition_applied :
    (rename_files_in_directory fsDemo picsDir false false noFail).1.total =
      (rename_files_in_directory fsDemo picsDir false false noFail).1.renamed +
      (rename_files_in_directory fsDemo picsDir false false noFail).1.skipped +
      (rename_files_in_directory fsDemo picsDir false false noFail).1.errors ∧
    (rename_files_in_directory fsDemo picsDir false false noFail).1.total =
      (candidateFiles fsDemo picsDir false).length ∧
    (rename_files_in_directory fsDemo picsDir false false noFail).1.error = false :=
  batch_stats_partition fsDemo picsDir false false noFail (by decide)

/-! ## Outcome classification of precondition failures -/

theorem rename_file_missing (fs : FS) (p : FsPath) (dry_run osFail : Bool)
    (h : ¬ pathEx fs p) :
    rename_file fs p dry_run osFail =
      (⟨false, fullPath p, none, "File does not exist"⟩, fs) := by
  rw [rename_file, if_pos h]

theorem rename_file_not_file (fs : FS) (p : FsPath) (dry_run osFail : Bool)
    (hex : pathEx fs p) (h : p ∉ fs.files) :
    rename_file fs p dry_run osFail =
      (⟨false, fullPath p, none, "Not a file"⟩, fs) := by
  rw [rename_file, if_neg (not_not_intro hex), if_pos h]

theorem rename_file_no_match (fs : FS) (p : FsPath) (dry_run osFail : Bool)
    (hp : p ∈ fs.files) (hgen : generate_new_filename p.name = none) :
    rename_file fs p dry_run osFail =
      (⟨false, p.name, none,
        "Does not match OriginalFilename_YYYYMMDD_Caption pattern"⟩, fs) := by
  rw [rename_file, if_neg (not_not_intro (show pathEx fs p from Or.inl hp)),
    if_neg (not_not_intro hp)]
  simp only [hgen]

theorem rename_file_collision (fs : FS) (p : FsPath) (dry_run osFail : Bool)
    (nf : List Char) (hp : p ∈ fs.files)
    (hgen : generate_new_filename p.name = some nf)
    (htgt : pathEx fs ⟨p.dir, nf⟩) :
    rename_file fs p dry_run osFail =
      (⟨false, p.name, some nf, "Target file already exists"⟩, fs) := by
  rw [rename_file, if_neg (not_not_intro (show pathEx fs p from Or.inl hp)),
    if_neg (not_not_intro hp)]
  simp only [hgen]
  rw [if_pos htgt]

/-- C2 (amended): a target-name collision is surfaced as a per-file error —
`success` false with the new name present — and the loop classifies it into
the `errors` bucket; but a missing path or a non-regular-file path produces
an Outcome with no new name, which the loop classifies into the `skipped`
bucket, not `errors`.  No per-file failure aborts the batch: over an
existing directory every candidate is counted in `total`. -/
theorem precondition_failure_buckets :
    (∀ fs p dry_run osFail nf, p ∈ fs.files →
      generate_new_filename p.name = some nf → pathEx fs ⟨p.dir, nf⟩ →
      (rename_file fs p dry_run osFail).1.success = false ∧
      (rename_file fs p dry_run osFail).1.new_name = some nf ∧
      classify (rename_file fs p dry_run osFail).1 = Bucket.errors) ∧
    (∀ fs p dry_run osFail, ¬ pathEx fs p →
      (rename_file fs p dry_run osFail).1.success = false ∧
      (rename_file fs p dry_run osFail).1.new_name = none ∧
      classify (rename_file fs p dry_run osFail).1 = Bucket.skipped) ∧
    (∀ fs p dry_run osFail, pathEx fs p → p ∉ fs.files →
      (rename_file fs p dry_run osFail).1.success = false ∧
      (rename_file fs p dry_run osFail).1.new_name = none ∧
      classify (rename_file fs p dry_run osFail).1 = Bucket.skipped) ∧
    (∀ fs dir recursive dry_run oracle, dir ∈ fs.dirs →
      (rename_files_in_directory fs dir recursive dry_run oracle).1.total =
        (candidateFiles fs dir recursive).length) := by
  refine ⟨?_, ?_, ?_, ?_⟩
  · intro fs p dry_run osFail nf hp hgen htgt
    rw [rename_file_collision fs p dry_run osFail nf hp hgen htgt]
    exact ⟨rfl, rfl, rfl⟩
  · intro fs p dry_run osFail h
    rw [rename_file_missing fs p dry_run osFail h]
    exact ⟨rfl, rfl, rfl⟩
  · intro fs p dry_run osFail hex h
    rw [rename_file_not_file fs p dry_run osFail hex h]
    exact ⟨rfl, rfl, rfl⟩
  · intro fs dir recursive dry_run oracle hdir
    rw [rename_dir_stats fs dir recursive dry_run oracle hdir]
    have h1 := (processFiles_inv (candidateFiles fs dir recursive) fs
      ⟨0, 0, 0, 0, false⟩ dry_run oracle).1
    simp only at h1
    omega

/-- Witness for C2: the collision in `fsCollide` lands in `errors`, a
missing path in `fsDemo` lands in `skipped`, and the `fsDemo` batch counts
every candidate. -/
theorem precondition_failure_buckets_applied :
    classify (rename_file fsCollide fileSrc false false).1 = Bucket.errors ∧
    classify (rename_file fsDemo ⟨picsDir, ("ghost.jpg" : String).data⟩ false false).1 =
      Bucket.skipped ∧
    (rename_files_in_directory fsDemo picsDir false false noFail).1.total =
      (candidateFiles fsDemo picsDir false).length := by
  refine ⟨?_, ?_, ?_⟩
  · exact (precondition_failure_buckets.1 fsCollide fileSrc false false
      (("20231215_Test_IMG_0001.jpg" : String).data) (by decide) (by decide)
      (by decide)).2.2
  · exact (precondition_failure_buckets.2.1 fsDemo
      ⟨picsDir, ("ghost.jpg" : String).data⟩ false false (by decide)).2.2
  · exact precondition_failure_buckets.2.2.2 fsDemo picsDir false false noFail (by decide)

/-- Counterexample to C2 as stated: the Outcome of a missing path has no new
name and the loop classifies it as `skipped`, not as an error. -/
theorem missing_path_outcome_classified_skipped :
    (rename_file (⟨[], []⟩ : FS)
      (⟨("/d" : String).data, ("x.jpg" : String).data⟩ : FsPath) false false).1.success =
      false ∧
    (rename_file (⟨[], []⟩ : FS)
      (⟨("/d" : String).data, ("x.jpg" : String).data⟩ : FsPath) false false).1.new_name =
      none ∧
    classify (rename_file (⟨[], []⟩ : FS)
      (⟨("/d" : String).data, ("x.jpg" : String).data⟩ : FsPath) false false).1 =
      Bucket.skipped ∧
    classify (rename_file (⟨[], []⟩ : FS)
      (⟨("/d" : String).data, ("x.jpg" : String).data⟩ : FsPath) false false).1 ≠
      Bucket.errors := by
  decide

/-! ## Frame conditions of `rename_file` and the exit-code policy -/

theorem rename_file_ok (fs : FS) (p : FsPath) (dry_run osFail : Bool) (nf : List Char)
    (hp : p ∈ fs.files) (hgen : generate_new_filename p.name = some nf)
    (htgt : ¬ pathEx fs ⟨p.dir, nf⟩) :
    rename_file fs p dry_run osFail =
      if dry_run then (⟨true, p.name, some nf, "Would rename (dry run)"⟩, fs)
      else if osFail then (⟨false, p.name, some nf, "Error: OSError"⟩, fs)
      else (⟨true, p.name, some nf, "Successfully renamed"⟩,
        renameFS fs p ⟨p.dir, nf⟩) := by
  rw [rename_file, if_neg (not_not_intro (show pathEx fs p from Or.inl hp)),
    if_neg (not_not_intro hp)]
  simp only [hgen]
  rw [if_neg htgt]

/-- C6: `rename_file` mutates the filesystem exactly when it succeeds with
`dry_run = false` (and then performs precisely the one rename); in every
other case — failure or dry run — the filesystem is unchanged, and after a
successful dry run the original file still exists and the target does
not. -/
theorem rename_file_frame (fs : FS) (p : FsPath) (dry_run osFail : Bool)
    (o : Outcome) (fs2 : FS) (h : rename_file fs p dry_run osFail = (o, fs2)) :
    (o.success = true → dry_run = false →
      ∃ nf, generate_new_filename p.name = some nf ∧
        fs2 = renameFS fs p ⟨p.dir, nf⟩) ∧
    (o.success = false → fs2 = fs) ∧
    (dry_run = true → fs2 = fs) ∧
    (dry_run = true → o.success = true →
      p ∈ fs2.files ∧ ∀ nf2, o.new_name = some nf2 → ¬ pathEx fs2 ⟨p.dir, nf2⟩) := by
  by_cases hex : pathEx fs p
  case neg =>
    rw [rename_file_missing fs p dry_run osFail hex] at h
    injection h with h1 h2
    subst h1; subst h2
    exact ⟨fun hs _ => absurd hs (by simp), fun _ => rfl, fun _ => rfl,
      fun _ hs => absurd hs (by simp)⟩
  case pos =>
    by_cases hpf : p ∈ fs.files
    case neg =>
      rw [rename_file_not_file fs p dry_run osFail hex hpf] at h
      injection h with h1 h2
      subst h1; subst h2
      exact ⟨fun hs _ => absurd hs (by simp), fun _ => rfl, fun _ => rfl,
        fun _ hs => absurd hs (by simp)⟩
    case pos =>
      cases hgen : generate_new_filename p.name with
      | none =>
        rw [rename_file_no_match fs p dry_run osFail hpf hgen] at h
        injection h with h1 h2
        subst h1; subst h2
        exact ⟨fun hs _ => absurd hs (by simp), fun _ => rfl, fun _ => rfl,
          fun _ hs => absurd hs (by simp)⟩
      | some nf =>
        by_cases htgt : pathEx fs ⟨p.dir, nf⟩
        case pos =>
          rw [rename_file_collision fs p dry_run osFail nf hpf hgen htgt] at h
          injection h with h1 h2
          subst h1; subst h2
          exact ⟨fun hs _ => absurd hs (by simp), fun _ => rfl, fun _ => rfl,
            fun _ hs => absurd hs (by simp)⟩
        case neg =>
          rw [rename_file_ok fs p dry_run osFail nf hpf hgen htgt] at h
          cases dry_run with
          | true =>
            rw [if_pos rfl] at h
            injection h with h1 h2
            subst h1; subst h2
            refine ⟨fun _ hdf => absurd hdf (by simp), fun _ => rfl, fun _ => rfl,
              fun _ _ => ⟨hpf, fun nf2 hnf2 => ?_⟩⟩
            have : nf = nf2 := Option.some_inj.mp hnf2
            subst this
            exact htgt
          | false =>
            rw [if_neg Bool.false_ne_true] at h
            cases osFail with
            | true =>
              rw [if_pos rfl] at h
              injection h with h1 h2
              subst h1; subst h2
              exact ⟨fun hs _ => absurd hs (by simp), fun _ => rfl,
                fun hd => absurd hd (by simp), fun hd _ => absurd hd (by simp)⟩
            | false =>
              rw [if_neg Bool.false_ne_true] at h
              injection h with h1 h2
              subst h1; subst h2
              exact ⟨fun _ _ => ⟨nf, rfl, rfl⟩, fun hs => absurd hs (by simp),
                fun hd => absurd hd (by simp), fun hd _ => absurd hd (by simp)⟩

/-- Witness for C6: a dry run on the matching file of `fsSolo` leaves the
filesystem untouched — the original still there, the target absent. -/
theorem rename_file_frame_applied :
    (rename_file fsSolo fileMatch1 true false).2 = fsSolo ∧
    fileMatch1 ∈ (rename_file fsSolo fileMatch1 true false).2.files ∧
    ¬ pathEx (rename_file fsSolo fileMatch1 true false).2
      ⟨fileMatch1.dir, ("20231215_First_IMG_0001.jpg" : String).data⟩ := by
  have h := rename_file_frame fsSolo fileMatch1 true false
    (rename_file fsSolo fileMatch1 true false).1
    (rename_file fsSolo fileMatch1 true false).2 rfl
  refine ⟨h.2.2.1 rfl, (h.2.2.2 rfl (by decide)).1, ?_⟩
  exact (h.2.2.2 rfl (by decide)).2 (("20231215_First_IMG_0001.jpg" : String).data)
    (by decide)

/-- C3 (amended): in batch mode over a valid directory the exit status
depends only on the `errors` counter — skipped files are irrelevant; but in
single-file mode a file that merely fails to match the pattern exits with
status 1, not 0. -/
theorem exit_code_policy :
    (∀ fs dir recursive dry_run oracle, dir ∈ fs.dirs →
      fs.files.find? (fun p => decide (fullPath p = dir)) = none →
      mainRun fs dir recursive dry_run oracle =
        if (rename_files_in_directory fs dir recursive dry_run oracle).1.errors = 0
        then 0 else 1) ∧
    (∀ fs p recursive dry_run oracle,
      fs.files.find? (fun q => decide (fullPath q = fullPath p)) = some p →
      generate_new_filename p.name = none →
      mainRun fs (fullPath p) recursive dry_run oracle = 1) := by
  constructor
  · intro fs dir recursive dry_run oracle hdir hfind
    have herr : (rename_files_in_directory fs dir recursive dry_run oracle).1.error =
        false := by
      rw [rename_dir_stats fs dir recursive dry_run oracle hdir]
      simpa using (processFiles_inv (candidateFiles fs dir recursive) fs
        ⟨0, 0, 0, 0, false⟩ dry_run oracle).2.2
    rw [mainRun, if_neg (not_not_intro (show dirEx fs dir from Or.inl hdir))]
    simp only [hfind]
    rw [if_pos hdir]
    simp only [herr]
    rw [if_neg Bool.false_ne_true]
  · intro fs p recursive dry_run oracle hfind hgen
    have hp : p ∈ fs.files := List.mem_of_find?_eq_some hfind
    have hex : dirEx fs (fullPath p) := Or.inr ⟨p, hp, rfl⟩
    rw [mainRun, if_neg (not_not_intro hex)]
    simp only [hfind]
    rw [rename_file_no_match fs p dry_run (oracle p) hp hgen]
    simp

/-- Witness for C3: the `fsDemo` batch (one match, one skip, no errors)
exits by the errors counter alone, and the non-matching single file exits
1. -/
theorem exit_code_policy_applied :
    mainRun fsDemo picsDir false false noFail =
      (if (rename_files_in_directory fsDemo picsDir false false noFail).1.errors = 0
        then 0 else 1) ∧
    mainRun fsDemo (fullPath fileNoMatch) false false noFail = 1 := by
  constructor
  · exact exit_code_policy.1 fsDemo picsDir false false noFail (by decide) (by decide)
  · exact exit_code_policy.2 fsDemo fileNoMatch false false noFail (by decide) (by decide)

/-- Counterexample to C3 as stated: in single-file mode a merely-skipped
(non-matching) file makes the process exit 1, not 0. -/
theorem single_file_nonmatch_exits_one :
    generate_new_filename (("NotMatching.jpg" : String).data) = none ∧
    mainRun fsDemo (fullPath fileNoMatch) false false noFail = 1 ∧
    mainRun fsDemo (fullPath fileNoMatch) false false noFail ≠ 0 := by
  decide
